import Mathlib

/-!
Verification of the HHI analysis routine `calculate_hhi_for_ixps` from
`hhi_index.py`.  The Python function reads a PeeringDB JSON dump, restricts
to Exchanges (IXPs) of a target country, aggregates a market metric
(port speed sum or count of distinct connected networks) per Exchange,
and returns the Herfindahl-Hirschman Index together with a sorted detail
list.  We embed the function shallowly: Python dicts become association
lists with insertion-order semantics, Python sets become duplicate-free
lists, file input becomes an explicit `ReadResult`, and the returned
`(None, None)` error sentinel becomes a dedicated constructor.
-/

namespace HHI

/-- An `ix` record: `id` and `name` are accessed with mandatory subscripts
in the source, `country` with `.get` (may be absent). -/
structure IX where
  id : Int
  name : String
  country : Option String
deriving DecidableEq, Repr

/-- An `ixlan` record: `id` is mandatory, `ix_id` accessed with `.get`. -/
structure IXLan where
  id : Int
  ix_id : Option Int
deriving DecidableEq, Repr

/-- A `netixlan` record: `ixlan_id`, `net_id` and `speed` are all accessed
with `.get` in the source (`speed` with default 0). -/
structure NetIXLan where
  ixlan_id : Option Int
  net_id : Option Int
  speed : Option Int
deriving DecidableEq, Repr

/-- The parsed JSON dump: the three `data` arrays under the top-level
keys `ix`, `ixlan`, `netixlan`. -/
structure Dump where
  ix : List IX
  ixlan : List IXLan
  netixlan : List NetIXLan
deriving DecidableEq, Repr

/-- Outcome of opening and JSON-decoding the input file: the path may not
exist (`FileNotFoundError`), the content may fail to decode
(`json.JSONDecodeError`), or a dump is obtained. -/
inductive ReadResult where
  | notFound
  | malformed
  | ok (data : Dump)
deriving DecidableEq, Repr

/-- A detail entry `(IXP Name, Metric Value, Market Share)`. -/
abbrev Entry := String × ℚ × ℚ

/-- Result of the function: `none2` models the `(None, None)` error
sentinel, `result` the `(hhi_score, ixp_details)` tuple. -/
inductive HHIResult where
  | none2
  | result (hhi_score : ℚ) (ixp_details : List Entry)
deriving DecidableEq, Repr

/-! ### Python dict and set semantics

Python dicts preserve insertion order; overwriting an existing key keeps
its position.  We model a dict with integer keys as an association list
without duplicate keys, maintained by `dinsert`. -/

/-- Lookup in a Python dict modelled as an association list. -/
def dlookup {α : Type} (k : Int) : List (Int × α) → Option α
  | [] => none
  | (k', v) :: rest => if k' = k then some v else dlookup k rest

/-- Insertion into a Python dict: an existing key keeps its position and
gets the new value, a new key goes to the end. -/
def dinsert {α : Type} (k : Int) (v : α) : List (Int × α) → List (Int × α)
  | [] => [(k, v)]
  | (k', v') :: rest =>
      if k' = k then (k, v) :: rest else (k', v') :: dinsert k v rest

/-- `set.add`: a Python set, modelled as a duplicate-free list (insertion
order is irrelevant because only the cardinality is consumed). -/
def setAdd (x : Option Int) (s : List (Option Int)) : List (Option Int) :=
  if x ∈ s then s else s ++ [x]

/-! ### Step 1: identify all IXPs in the target country -/

/-- `target_ixps`: dict comprehension mapping `ix['id']` to `ix['name']`
for records with `ix.get('country') == country_code`. -/
def targetIxps (ixs : List IX) (country_code : String) : List (Int × String) :=
  ixs.foldl
    (fun acc ix =>
      if ix.country = some country_code then dinsert ix.id ix.name acc else acc)
    []

/-! ### Step 2: map IXP LANs back to their parent IXP id -/

/-- `ixlan_to_ix_map`: dict comprehension mapping `ixlan['id']` to
`ixlan.get('ix_id')` for records whose `ix_id` is a key of `target_ixps`
(`None` is never such a key, the keys being integers). -/
def ixlanToIxMap (ixlans : List IXLan) (targets : List (Int × String)) :
    List (Int × Int) :=
  ixlans.foldl
    (fun acc lan =>
      match lan.ix_id with
      | some ixid =>
          if (dlookup ixid targets).isSome then dinsert lan.id ixid acc else acc
      | none => acc)
    []

/-! ### Step 3: aggregate the market metric for each target IXP -/

/-- The accumulator entry for one IXP: a running speed sum
(`defaultdict(int)` cell) or a set of `net_id` values. -/
inductive MVal where
  | ival (v : Int)
  | sval (s : List (Option Int))
deriving DecidableEq, Repr

/-- `ixlan_id = netixlan.get('ixlan_id'); if ixlan_id in ixlan_to_ix_map:
ix_id = ixlan_to_ix_map[ixlan_id]` — resolve a link to its in-scope
parent IXP, if any. -/
def resolveLink (lanMap : List (Int × Int)) (l : NetIXLan) : Option Int :=
  match l.ixlan_id with
  | some lid => dlookup lid lanMap
  | none => none

/-- The `defaultdict(int)` read used by `+= speed`: missing cell is 0. -/
def curInt : Option MVal → Int
  | some (MVal.ival v) => v
  | some (MVal.sval _) => 0
  | none => 0

/-- The `if 'value' not in ...: ... = set()` read: missing cell is the
empty set. -/
def curSet : Option MVal → List (Option Int)
  | some (MVal.sval s) => s
  | some (MVal.ival _) => []
  | none => []

/-- One iteration of the aggregation loop over `netixlan` records. -/
def aggStep (metric : String) (lanMap : List (Int × Int))
    (acc : List (Int × MVal)) (l : NetIXLan) : List (Int × MVal) :=
  match resolveLink lanMap l with
  | none => acc
  | some ix_id =>
      if metric = "speed" then
        dinsert ix_id (MVal.ival (curInt (dlookup ix_id acc) + l.speed.getD 0)) acc
      else if metric = "asns" then
        dinsert ix_id (MVal.sval (setAdd l.net_id (curSet (dlookup ix_id acc)))) acc
      else acc

/-- `ixp_market_values` after the loop over all `netixlan` records. -/
def ixpMarketValues (metric : String) (lanMap : List (Int × Int))
    (links : List NetIXLan) : List (Int × MVal) :=
  links.foldl (aggStep metric lanMap) []

/-- Finalize one accumulated value: `len(...)` of the set for `asns`,
the integer itself otherwise.  (In a run the `asns` accumulator is always
a set and the `speed` accumulator always an integer.) -/
def finalizeVal (metric : String) (mv : MVal) : Int :=
  if metric = "asns" then
    match mv with
    | MVal.sval s => (s.length : Int)
    | MVal.ival _ => 0
  else
    match mv with
    | MVal.ival v => v
    | MVal.sval _ => 0

/-- `final_ixp_values`: the finalized per-IXP integer values, in the
iteration order of `ixp_market_values`. -/
def finalIxpValues (metric : String) (mvals : List (Int × MVal)) :
    List (Int × Int) :=
  mvals.map (fun p => (p.1, finalizeVal metric p.2))

/-- The whole aggregation pipeline applied to a dump. -/
def finalValues (d : Dump) (country_code metric : String) : List (Int × Int) :=
  finalIxpValues metric
    (ixpMarketValues metric (ixlanToIxMap d.ixlan (targetIxps d.ix country_code))
      d.netixlan)

/-! ### Step 4: total market size -/

/-- `total_market_size = sum(final_ixp_values.values())`. -/
def totalOf (fv : List (Int × Int)) : Int := (fv.map (fun p => p.2)).sum

/-- Total market size of a dump for a country and metric. -/
def totalMarketSize (d : Dump) (country_code metric : String) : Int :=
  totalOf (finalValues d country_code metric)

/-! ### Step 5: market share per IXP -/

/-- `target_ixps.get(ix_id, f"Unknown IXP (ID: {ix_id})")`. -/
def ixpNameOf (targets : List (Int × String)) (i : Int) : String :=
  (dlookup i targets).getD ("Unknown IXP (ID: " ++ toString i ++ ")")

/-- `display_value`: the raw value, divided by 1000.0 under `speed`
(Mbps to Gbps conversion for display). -/
def displayValueOf (metric : String) (v : Int) : ℚ :=
  if metric = "speed" then (v : ℚ) / 1000 else (v : ℚ)

/-- One `(ixp_name, display_value, market_share)` tuple, with
`market_share = (value / total_market_size) * 100`. -/
def mkEntry (metric : String) (targets : List (Int × String)) (total : Int)
    (p : Int × Int) : Entry :=
  (ixpNameOf targets p.1, displayValueOf metric p.2,
    ((p.2 : ℚ) / (total : ℚ)) * 100)

/-- `ixp_details` before sorting, in mapping iteration order. -/
def ixpDetails (metric : String) (targets : List (Int × String)) (total : Int)
    (fv : List (Int × Int)) : List Entry :=
  fv.map (mkEntry metric targets total)

/-! ### Step 6: HHI score and sort -/

/-- `hhi_score = sum(details[2] ** 2 for details in ixp_details)`,
computed over the unsorted detail list. -/
def hhiScore (details : List Entry) : ℚ :=
  (details.map (fun e => e.2.2 ^ 2)).sum

/-- Insert one entry into a list sorted descending by the display value,
after all entries whose display value is not smaller (stable order). -/
def insertDesc (e : Entry) : List Entry → List Entry
  | [] => [e]
  | x :: xs => if x.2.1 < e.2.1 then e :: x :: xs else x :: insertDesc e xs

/-- `ixp_details.sort(key=lambda x: x[1], reverse=True)`: stable sort,
descending by the display value (insertion from the left keeps the
original order among entries with equal display values). -/
def sortDetailsDesc (l : List Entry) : List Entry :=
  l.foldl (fun acc e => insertDesc e acc) []

/-! ### The function itself -/

/-- Shallow embedding of `calculate_hhi_for_ixps`.  The file read is an
explicit argument, so the guard on `metric` visibly precedes (and is
independent of) any file access. -/
def calculate_hhi_for_ixps (read : ReadResult) (country_code : String)
    (metric : String) : HHIResult :=
  if metric ∉ (["speed", "asns"] : List String) then HHIResult.none2
  else
    match read with
    | ReadResult.notFound => HHIResult.none2
    | ReadResult.malformed => HHIResult.none2
    | ReadResult.ok data =>
        if targetIxps data.ix country_code = [] then HHIResult.result 0 []
        else if totalMarketSize data country_code metric = 0 then
          HHIResult.result 0 []
        else
          HHIResult.result
            (hhiScore (ixpDetails metric (targetIxps data.ix country_code)
              (totalMarketSize data country_code metric)
              (finalValues data country_code metric)))
            (sortDetailsDesc (ixpDetails metric (targetIxps data.ix country_code)
              (totalMarketSize data country_code metric)
              (finalValues data country_code metric)))

/-- The distinct `net_id` values (as a list, possibly with repeats) of the
links that resolve to IXP `i` through the in-scope LAN map. -/
def netIdsFor (lanMap : List (Int × Int)) (links : List NetIXLan) (i : Int) :
    List (Option Int) :=
  links.filterMap
    (fun l => if resolveLink lanMap l = some i then some l.net_id else none)

/-- The `net_id` values of the links of a dump that resolve to IXP `i`
inside the target country scope. -/
def inScopeNetIds (d : Dump) (country_code : String) (i : Int) :
    List (Option Int) :=
  netIdsFor (ixlanToIxMap d.ixlan (targetIxps d.ix country_code)) d.netixlan i

/-- Invariant of the aggregation loop under `metric = "asns"` after the
links in `done` have been processed: each accumulator cell is a
duplicate-free set holding exactly the `net_id` values of the processed
links that resolve to its IXP, no cell is an integer, and an absent cell
means no processed link resolved to that IXP. -/
def AggInv (lanMap : List (Int × Int)) (done : List NetIXLan)
    (acc : List (Int × MVal)) : Prop :=
  ∀ i : Int,
    (∀ s, dlookup i acc = some (MVal.sval s) →
      s.Nodup ∧ ∀ x, x ∈ s ↔ x ∈ netIdsFor lanMap done i) ∧
    (∀ v, dlookup i acc ≠ some (MVal.ival v)) ∧
    (dlookup i acc = none → netIdsFor lanMap done i = [])

/-! ### Concrete datasets used to instantiate the theorems -/

/-- One US Exchange holding all linked speed (scenario A of the spec). -/
def dumpA : Dump :=
  { ix := [{ id := 1, name := "IX-A", country := some "US" }],
    ixlan := [{ id := 10, ix_id := some 1 }],
    netixlan := [{ ixlan_id := some 10, net_id := some 5, speed := some 100 }] }

/-- A link of the same speed as the one of `dumpA` whose `ixlan_id`
resolves to no in-scope LAN (scenario F). -/
def linkOut : NetIXLan :=
  { ixlan_id := some 99, net_id := some 7, speed := some 100 }

/-- A link lacking a `net_id`, landing on the LAN of `dumpA`. -/
def linkNoNet : NetIXLan :=
  { ixlan_id := some 10, net_id := none, speed := some 50 }

/-- Two links from the same network into the same Exchange (scenario D). -/
def dumpD : Dump :=
  { ix := [{ id := 1, name := "IX-A", country := some "US" }],
    ixlan := [{ id := 10, ix_id := some 1 }],
    netixlan := [{ ixlan_id := some 10, net_id := some 5, speed := some 100 },
                 { ixlan_id := some 10, net_id := some 5, speed := some 200 }] }

/-- A dataset that matches no country at all (scenario C). -/
def dumpEmpty : Dump := { ix := [], ixlan := [], netixlan := [] }

/-! ### Dictionary lemmas -/

theorem dlookup_dinsert_self {α : Type} (k : Int) (v : α) (l : List (Int × α)) :
    dlookup k (dinsert k v l) = some v := by
  induction l with
  | nil => simp [dinsert, dlookup]
  | cons p rest ih =>
      obtain ⟨k', v'⟩ := p
      by_cases h : k' = k
      · simp [dinsert, h, dlookup]
      · simp [dinsert, h, dlookup, ih]

theorem dlookup_dinsert_ne {α : Type} {i k : Int} (h : i ≠ k) (v : α)
    (l : List (Int × α)) : dlookup i (dinsert k v l) = dlookup i l := by
  induction l with
  | nil => simp [dinsert, dlookup, Ne.symm h]
  | cons p rest ih =>
      obtain ⟨k', v'⟩ := p
      by_cases hk : k' = k
      · subst hk
        simp [dinsert, dlookup, Ne.symm h]
      · by_cases hi : k' = i <;> simp [dinsert, dlookup, hk, hi, ih, h]

theorem mem_dinsert {α : Type} {p : Int × α} {k : Int} {v : α} :
    ∀ {l : List (Int × α)}, p ∈ dinsert k v l → p = (k, v) ∨ p ∈ l := by
  intro l
  induction l with
  | nil => simp [dinsert]
  | cons q rest ih =>
      obtain ⟨k', v'⟩ := q
      by_cases h : k' = k
      · simp only [dinsert, if_pos h, List.mem_cons]
        rintro (hp | hp)
        · exact Or.inl hp
        · exact Or.inr (Or.inr hp)
      · simp only [dinsert, if_neg h, List.mem_cons]
        rintro (hp | hp)
        · exact Or.inr (Or.inl hp)
        · rcases ih hp with h1 | h1
          · exact Or.inl h1
          · exact Or.inr (Or.inr h1)

theorem dlookup_mem {α : Type} {k : Int} {v : α} :
    ∀ {l : List (Int × α)}, dlookup k l = some v → (k, v) ∈ l := by
  intro l
  induction l with
  | nil => simp [dlookup]
  | cons q rest ih =>
      obtain ⟨k', v'⟩ := q
      by_cases h : k' = k
      · subst h
        intro hl
        simp only [dlookup, if_pos, Option.some.injEq] at hl
        cases hl
        exact List.mem_cons_self _ _
      · intro hl
        simp only [dlookup, if_neg h] at hl
        exact List.mem_cons_of_mem _ (ih hl)

theorem dlookup_map_snd {α β : Type} (f : α → β) (i : Int) :
    ∀ l : List (Int × α),
      dlookup i (l.map (fun p => (p.1, f p.2))) = (dlookup i l).map f := by
  intro l
  induction l with
  | nil => rfl
  | cons p rest ih =>
      obtain ⟨k', v'⟩ := p
      by_cases h : k' = i <;> simp [dlookup, h, ih]

/-! ### Set lemmas -/

theorem mem_setAdd {y x : Option Int} {s : List (Option Int)} :
    y ∈ setAdd x s ↔ y ∈ s ∨ y = x := by
  by_cases h : x ∈ s
  · simp only [setAdd, if_pos h]
    constructor
    · exact Or.inl
    · rintro (hy | rfl)
      · exact hy
      · exact h
  · simp [setAdd, if_neg h]

theorem nodup_setAdd {x : Option Int} {s : List (Option Int)} (h : s.Nodup) :
    (setAdd x s).Nodup := by
  by_cases hx : x ∈ s
  · simpa [setAdd, if_pos hx] using h
  · simp [setAdd, if_neg hx, List.nodup_append, h, hx]

/-! ### Sort lemmas -/

theorem insertDesc_perm (e : Entry) (l : List Entry) :
    (insertDesc e l).Perm (e :: l) := by
  induction l with
  | nil => exact List.Perm.refl [e]
  | cons x xs ih =>
      by_cases h : x.2.1 < e.2.1
      · simp only [insertDesc, if_pos h]
        exact List.Perm.refl _
      · simp only [insertDesc, if_neg h]
        exact (List.Perm.cons x ih).trans (List.Perm.swap e x xs)

theorem sortDetailsDesc_foldl_perm :
    ∀ (l acc : List Entry),
      (l.foldl (fun acc e => insertDesc e acc) acc).Perm (acc ++ l) := by
  intro l
  induction l with
  | nil => intro acc; simp
  | cons e es ih =>
      intro acc
      have h1 := ih (insertDesc e acc)
      have h2 : (insertDesc e acc ++ es).Perm (acc ++ e :: es) :=
        ((insertDesc_perm e acc).append_right es).trans List.perm_middle.symm
      exact h1.trans h2

theorem sortDetailsDesc_perm (l : List Entry) : (sortDetailsDesc l).Perm l := by
  have h := sortDetailsDesc_foldl_perm l []
  simpa [sortDetailsDesc] using h

/-! ### Fold invariants -/

theorem foldl_inv {σ β : Type} {f : σ → β → σ} {P : σ → Prop}
    (hstep : ∀ s b, P s → P (f s b)) :
    ∀ (l : List β) {s : σ}, P s → P (l.foldl f s) := by
  intro l
  induction l with
  | nil => intro s hs; exact hs
  | cons b bs ih => intro s hs; exact ih (hstep s b hs)

theorem resolveLink_mem {lanMap : List (Int × Int)} {l : NetIXLan} {i : Int}
    (h : resolveLink lanMap l = some i) : ∃ lid, (lid, i) ∈ lanMap := by
  unfold resolveLink at h
  cases hl : l.ixlan_id with
  | none => rw [hl] at h; exact absurd h (by simp)
  | some lid => rw [hl] at h; exact ⟨lid, dlookup_mem h⟩

theorem aggStep_mem {m : String} {lanMap : List (Int × Int)}
    {acc : List (Int × MVal)} {l : NetIXLan} {r : Int × MVal}
    (hr : r ∈ aggStep m lanMap acc l) :
    r ∈ acc ∨ resolveLink lanMap l = some r.1 := by
  unfold aggStep at hr
  split at hr
  · exact Or.inl hr
  · next i hres =>
      split at hr
      · rcases mem_dinsert hr with h1 | h1
        · subst h1; exact Or.inr hres
        · exact Or.inl h1
      · split at hr
        · rcases mem_dinsert hr with h1 | h1
          · subst h1; exact Or.inr hres
          · exact Or.inl h1
        · exact Or.inl hr

theorem ixpMarketValues_mem {m : String} {lanMap : List (Int × Int)}
    {links : List NetIXLan} {r : Int × MVal}
    (hr : r ∈ ixpMarketValues m lanMap links) :
    ∃ lid, (lid, r.1) ∈ lanMap := by
  unfold ixpMarketValues at hr
  refine foldl_inv (P := fun acc => ∀ s ∈ acc, ∃ lid, (lid, s.1) ∈ lanMap)
    ?_ links ?_ r hr
  · intro acc l hacc s hs
    rcases aggStep_mem hs with h1 | h1
    · exact hacc s h1
    · exact resolveLink_mem h1
  · intro s hs
    exact absurd hs (List.not_mem_nil s)

theorem ixlanToIxMap_values {ixlans : List IXLan} {targets : List (Int × String)}
    {q : Int × Int} (hq : q ∈ ixlanToIxMap ixlans targets) :
    (dlookup q.2 targets).isSome := by
  unfold ixlanToIxMap at hq
  refine foldl_inv
    (P := fun acc => ∀ r ∈ acc, (dlookup r.2 targets).isSome) ?_ ixlans ?_ q hq
  · intro acc lan hacc r hr
    split at hr
    · next ixid heq =>
        split at hr
        · next hc =>
            rcases mem_dinsert hr with h1 | h1
            · subst h1; exact hc
            · exact hacc r h1
        · exact hacc r hr
    · exact hacc r hr
  · intro r hr
    exact absurd hr (List.not_mem_nil r)

theorem dlookup_finalIxpValues (m : String) (i : Int)
    (mvals : List (Int × MVal)) :
    dlookup i (finalIxpValues m mvals) = (dlookup i mvals).map (finalizeVal m) :=
  dlookup_map_snd _ _ _

theorem finalValues_key_isSome {d : Dump} {cc m : String} {p : Int × Int}
    (hp : p ∈ finalValues d cc m) :
    (dlookup p.1 (targetIxps d.ix cc)).isSome := by
  unfold finalValues finalIxpValues at hp
  rcases List.mem_map.mp hp with ⟨q, hq, hpq⟩
  rcases ixpMarketValues_mem hq with ⟨lid, hmem⟩
  have hsome := ixlanToIxMap_values hmem
  rw [← hpq]
  exact hsome

/-! ### The aggregation invariant for the asns metric -/

theorem netIdsFor_append (lanMap : List (Int × Int)) (xs ys : List NetIXLan)
    (i : Int) : netIdsFor lanMap (xs ++ ys) i =
      netIdsFor lanMap xs i ++ netIdsFor lanMap ys i := by
  unfold netIdsFor
  exact List.filterMap_append xs ys _

theorem netIdsFor_single (lanMap : List (Int × Int)) (l : NetIXLan) (i : Int) :
    netIdsFor lanMap [l] i =
      if resolveLink lanMap l = some i then [l.net_id] else [] := by
  by_cases h : resolveLink lanMap l = some i <;> simp [netIdsFor, h]

theorem aggStep_resolve_none {m : String} {lanMap : List (Int × Int)}
    {acc : List (Int × MVal)} {l : NetIXLan}
    (hres : resolveLink lanMap l = none) : aggStep m lanMap acc l = acc := by
  unfold aggStep
  rw [hres]

theorem aggStep_asns_some {lanMap : List (Int × Int)}
    {acc : List (Int × MVal)} {l : NetIXLan} {j : Int}
    (hres : resolveLink lanMap l = some j) :
    aggStep "asns" lanMap acc l =
      dinsert j (MVal.sval (setAdd l.net_id (curSet (dlookup j acc)))) acc := by
  unfold aggStep
  rw [hres]
  simp [show ("asns" : String) ≠ "speed" from by decide]

theorem aggInv_step {lanMap : List (Int × Int)} {done : List NetIXLan}
    {acc : List (Int × MVal)} (l : NetIXLan)
    (hinv : AggInv lanMap done acc) :
    AggInv lanMap (done ++ [l]) (aggStep "asns" lanMap acc l) := by
  cases hres : resolveLink lanMap l with
  | none =>
      rw [aggStep_resolve_none hres]
      intro i
      have hn : netIdsFor lanMap (done ++ [l]) i = netIdsFor lanMap done i := by
        rw [netIdsFor_append, netIdsFor_single,
          if_neg (by rw [hres]; exact fun hc => Option.noConfusion hc),
          List.append_nil]
      rw [hn]
      exact hinv i
  | some j =>
      rw [aggStep_asns_some hres]
      intro i
      by_cases hij : i = j
      · subst hij
        have hn : netIdsFor lanMap (done ++ [l]) i =
            netIdsFor lanMap done i ++ [l.net_id] := by
          rw [netIdsFor_append, netIdsFor_single, if_pos hres]
        rw [hn]
        refine ⟨?_, ?_, ?_⟩
        · intro s hs
          rw [dlookup_dinsert_self] at hs
          injection hs with hX
          injection hX with hX2
          subst hX2
          cases hacc : dlookup i acc with
          | none =>
              have hemp : netIdsFor lanMap done i = [] := (hinv i).2.2 hacc
              rw [hemp]
              constructor
              · simp [curSet, setAdd]
              · intro x
                simp [curSet, setAdd]
          | some mv =>
              cases mv with
              | ival w => exact absurd hacc ((hinv i).2.1 w)
              | sval s0 =>
                  obtain ⟨hnd, hmem⟩ := (hinv i).1 s0 hacc
                  constructor
                  · exact nodup_setAdd (s := s0) hnd
                  · intro x
                    rw [show curSet (some (MVal.sval s0)) = s0 from rfl,
                      mem_setAdd, hmem x]
                    simp
        · intro v
          rw [dlookup_dinsert_self]
          exact fun hc => by injection hc with hc2; exact MVal.noConfusion hc2
        · rw [dlookup_dinsert_self]
          exact fun hc => Option.noConfusion hc
      · have hcond : ¬(resolveLink lanMap l = some i) := by
          rw [hres]
          intro hc
          injection hc with hc2
          exact hij hc2.symm
        have hn : netIdsFor lanMap (done ++ [l]) i = netIdsFor lanMap done i := by
          rw [netIdsFor_append, netIdsFor_single, if_neg hcond, List.append_nil]
        rw [hn, dlookup_dinsert_ne hij]
        exact hinv i

theorem aggInv_fold {lanMap : List (Int × Int)} :
    ∀ (links done : List NetIXLan) (acc : List (Int × MVal)),
      AggInv lanMap done acc →
      AggInv lanMap (done ++ links) (links.foldl (aggStep "asns" lanMap) acc) := by
  intro links
  induction links with
  | nil => intro done acc hmain; simpa using hmain
  | cons l ls ih =>
      intro done acc hmain
      have h2 := ih (done ++ [l]) (aggStep "asns" lanMap acc l)
        (aggInv_step l hmain)
      rw [List.append_assoc] at h2
      simpa using h2

theorem aggInv_links (lanMap : List (Int × Int)) (links : List NetIXLan) :
    AggInv lanMap links (ixpMarketValues "asns" lanMap links) := by
  have h0 : AggInv lanMap [] [] := by
    intro i
    refine ⟨?_, ?_, ?_⟩ <;> simp [dlookup, netIdsFor]
  have h2 := aggInv_fold links [] [] h0
  simpa [ixpMarketValues] using h2

/-! ### Characterization of the asns values -/

theorem asns_value_eq_card {d : Dump} {cc : String} {i v : Int}
    (h : dlookup i (finalValues d cc "asns") = some v) :
    v = ((inScopeNetIds d cc i).toFinset.card : Int) := by
  unfold finalValues at h
  rw [dlookup_finalIxpValues] at h
  have hInv := aggInv_links (ixlanToIxMap d.ixlan (targetIxps d.ix cc))
    d.netixlan i
  cases hm : dlookup i (ixpMarketValues "asns"
      (ixlanToIxMap d.ixlan (targetIxps d.ix cc)) d.netixlan) with
  | none => rw [hm] at h; exact absurd h (by simp)
  | some mv =>
      rw [hm] at h
      cases mv with
      | ival w => exact absurd hm (hInv.2.1 w)
      | sval s =>
          obtain ⟨hnd, hmem⟩ := hInv.1 s hm
          have hv : v = (s.length : Int) := by
            simp only [Option.map_some', Option.some.injEq] at h
            rw [← h]
            simp [finalizeVal]
          have hfs : s.toFinset = (inScopeNetIds d cc i).toFinset := by
            ext x
            rw [List.mem_toFinset, List.mem_toFinset, hmem x]
            exact Iff.rfl
          rw [hv, ← hfs, List.toFinset_card_of_nodup hnd]

theorem asns_lookup_none {d : Dump} {cc : String} {i : Int}
    (h : dlookup i (finalValues d cc "asns") = none) :
    inScopeNetIds d cc i = [] := by
  unfold finalValues at h
  rw [dlookup_finalIxpValues] at h
  have hInv := aggInv_links (ixlanToIxMap d.ixlan (targetIxps d.ix cc))
    d.netixlan i
  cases hm : dlookup i (ixpMarketValues "asns"
      (ixlanToIxMap d.ixlan (targetIxps d.ix cc)) d.netixlan) with
  | none => exact hInv.2.2 hm
  | some mv => rw [hm] at h; exact absurd h (by simp)

theorem asns_lookup_ne_none {d : Dump} {cc : String} {i : Int}
    (hne : inScopeNetIds d cc i ≠ []) :
    ∃ v, dlookup i (finalValues d cc "asns") = some v := by
  cases hl : dlookup i (finalValues d cc "asns") with
  | none => exact absurd (asns_lookup_none hl) hne
  | some v => exact ⟨v, rfl⟩

theorem finalValues_asns_getD (d : Dump) (cc : String) (i : Int) :
    (dlookup i (finalValues d cc "asns")).getD 0 =
      ((inScopeNetIds d cc i).toFinset.card : Int) := by
  cases hl : dlookup i (finalValues d cc "asns") with
  | none =>
      rw [asns_lookup_none hl]
      simp
  | some v =>
      simpa using asns_value_eq_card hl

/-! ### Inversion of the result -/

theorem calc_ok_result_inv {d : Dump} {cc m : String} {h : ℚ} {ds : List Entry}
    (hres : calculate_hhi_for_ixps (ReadResult.ok d) cc m = HHIResult.result h ds) :
    (h = 0 ∧ ds = []) ∨
      (totalMarketSize d cc m ≠ 0 ∧
        h = hhiScore (ixpDetails m (targetIxps d.ix cc) (totalMarketSize d cc m)
          (finalValues d cc m)) ∧
        ds = sortDetailsDesc (ixpDetails m (targetIxps d.ix cc)
          (totalMarketSize d cc m) (finalValues d cc m))) := by
  unfold calculate_hhi_for_ixps at hres
  split at hres
  · exact HHIResult.noConfusion hres
  · split at hres
    · exact HHIResult.noConfusion hres
    · exact HHIResult.noConfusion hres
    · next a heq =>
        injection heq with hd
        subst hd
        split at hres
        · injection hres with h1 h2
          exact Or.inl ⟨h1.symm, h2.symm⟩
        · split at hres
          · injection hres with h1 h2
            exact Or.inl ⟨h1.symm, h2.symm⟩
          · next hne =>
              injection hres with h1 h2
              exact Or.inr ⟨hne, h1.symm, h2.symm⟩

/-! ### The claims -/

/-- Claim C1: whenever `calculate_hhi_for_ixps` returns a result, the hhi
score equals the sum of the squared market-share percentages over the
returned detail entries, and every returned share is
`(value / totalMarketSize) * 100` on the percentage scale, for an
aggregated value of the dataset. -/
theorem hhi_eq_sum_of_squared_shares {d : Dump} {cc m : String} {h : ℚ}
    {ds : List Entry}
    (hres : calculate_hhi_for_ixps (ReadResult.ok d) cc m =
      HHIResult.result h ds) :
    h = (ds.map (fun e => e.2.2 ^ 2)).sum ∧
      ∀ e ∈ ds, ∃ p ∈ finalValues d cc m,
        e.2.2 = ((p.2 : ℚ) / (totalMarketSize d cc m : ℚ)) * 100 := by
  rcases calc_ok_result_inv hres with ⟨h0, hds⟩ | ⟨hne, hh, hds⟩
  · subst h0
    subst hds
    constructor
    · simp
    · intro e he
      exact absurd he (List.not_mem_nil e)
  · subst hds
    constructor
    · rw [hh]
      unfold hhiScore
      exact (((sortDetailsDesc_perm _).map (fun e => e.2.2 ^ 2)).sum_eq).symm
    · intro e he
      have he2 := (sortDetailsDesc_perm _).mem_iff.mp he
      rcases List.mem_map.mp he2 with ⟨p, hp, hmk⟩
      refine ⟨p, hp, ?_⟩
      rw [← hmk]
      rfl

/-- Claim C2: a missing input file and undecodable file content both make
the analysis abort with the error sentinel instead of producing a
result. -/
theorem notFound_malformed_abort (cc m : String) :
    calculate_hhi_for_ixps ReadResult.notFound cc m = HHIResult.none2 ∧
      calculate_hhi_for_ixps ReadResult.malformed cc m = HHIResult.none2 := by
  constructor <;>
    · unfold calculate_hhi_for_ixps
      split <;> rfl

/-- Witness for C1, scenario A: one Exchange holds the whole metric
total, the result is an hhi of 10000 with one detail entry of share 100,
and the score equals the sum of squared shares of the detail list. -/
theorem hhi_eq_sum_of_squared_shares_witness :
    calculate_hhi_for_ixps (ReadResult.ok dumpA) "US" "speed" =
      HHIResult.result 10000 [("IX-A", (1 : ℚ) / 10, 100)] ∧
    (10000 : ℚ) =
      (([("IX-A", (1 : ℚ) / 10, (100 : ℚ))] : List Entry).map
        (fun e => e.2.2 ^ 2)).sum := by
  have hres : calculate_hhi_for_ixps (ReadResult.ok dumpA) "US" "speed" =
      HHIResult.result 10000 [("IX-A", (1 : ℚ) / 10, 100)] := by
    norm_num [calculate_hhi_for_ixps, totalMarketSize, finalValues, targetIxps,
      ixlanToIxMap, ixpMarketValues, aggStep, resolveLink, dlookup, dinsert,
      curInt, curSet, setAdd, finalizeVal, finalIxpValues, totalOf, ixpDetails,
      mkEntry, ixpNameOf, displayValueOf, hhiScore, sortDetailsDesc, insertDesc,
      dumpA, show ("speed" : String) ≠ "asns" from by decide]
  exact ⟨hres, (hhi_eq_sum_of_squared_shares hres).1⟩

/-- Claim C3: a link whose LAN does not resolve to an Exchange of the
target country contributes nothing to the aggregation: appending it to
the dataset changes neither any group value nor the total market size. -/
theorem out_of_scope_link_contributes_nothing {d : Dump} {cc m : String}
    (l : NetIXLan)
    (hout : ∀ lid, l.ixlan_id = some lid →
      dlookup lid (ixlanToIxMap d.ixlan (targetIxps d.ix cc)) = none) :
    finalValues { d with netixlan := d.netixlan ++ [l] } cc m =
        finalValues d cc m ∧
      totalMarketSize { d with netixlan := d.netixlan ++ [l] } cc m =
        totalMarketSize d cc m := by
  have hres : resolveLink (ixlanToIxMap d.ixlan (targetIxps d.ix cc)) l = none := by
    unfold resolveLink
    cases hl : l.ixlan_id with
    | none => rfl
    | some lid => exact hout lid hl
  have hfv : finalValues { d with netixlan := d.netixlan ++ [l] } cc m =
      finalValues d cc m := by
    unfold finalValues ixpMarketValues
    rw [List.foldl_append]
    simp [aggStep_resolve_none hres]
  exact ⟨hfv, by unfold totalMarketSize; rw [hfv]⟩

/-- Witness for C3, scenario F: an out-of-scope link of the same speed as
the in-scope link contributes 0 to every group and to the total. -/
theorem out_of_scope_link_witness :
    finalValues { dumpA with netixlan := dumpA.netixlan ++ [linkOut] } "US" "speed" =
        finalValues dumpA "US" "speed" ∧
      totalMarketSize { dumpA with netixlan := dumpA.netixlan ++ [linkOut] } "US" "speed" =
        totalMarketSize dumpA "US" "speed" := by
  refine out_of_scope_link_contributes_nothing linkOut ?_
  intro lid hl
  have h99 : some (99 : Int) = some lid := hl
  injection h99 with h2
  subst h2
  decide

/-- Claim C4: an invalid metric selector is rejected with the error
sentinel for every possible state of the input file, so no file access
can influence the outcome. -/
theorem invalid_metric_rejected {m : String}
    (hm : m ∉ (["speed", "asns"] : List String)) :
    ∀ (read : ReadResult) (cc : String),
      calculate_hhi_for_ixps read cc m = HHIResult.none2 := by
  intro read cc
  unfold calculate_hhi_for_ixps
  rw [if_pos hm]

/-- Witness for C4, scenario E: the unknown metric string "bandwidth" is
rejected whether the file is missing or perfectly valid. -/
theorem invalid_metric_witness :
    calculate_hhi_for_ixps ReadResult.notFound "US" "bandwidth" =
        HHIResult.none2 ∧
      calculate_hhi_for_ixps (ReadResult.ok dumpA) "US" "bandwidth" =
        HHIResult.none2 :=
  ⟨invalid_metric_rejected (by decide) ReadResult.notFound "US",
   invalid_metric_rejected (by decide) (ReadResult.ok dumpA) "US"⟩

/-- Claim C5: with a valid metric, an empty country scope or a zero total
market size yields the valid terminal state of score 0 with an empty
detail list, not an error. -/
theorem empty_scope_or_zero_total {d : Dump} {cc m : String}
    (hm : m ∈ (["speed", "asns"] : List String))
    (hz : targetIxps d.ix cc = [] ∨ totalMarketSize d cc m = 0) :
    calculate_hhi_for_ixps (ReadResult.ok d) cc m = HHIResult.result 0 [] := by
  unfold calculate_hhi_for_ixps
  rw [if_neg (not_not_intro hm)]
  split
  · next heq => exact ReadResult.noConfusion heq
  · next heq => exact ReadResult.noConfusion heq
  · next a heq =>
      injection heq with hd
      subst hd
      rcases hz with hz | hz
      · rw [if_pos hz]
      · by_cases ht : targetIxps d.ix cc = []
        · rw [if_pos ht]
        · rw [if_neg ht, if_pos hz]

/-- Witness for C5, scenario C: a dataset whose Exchanges match no
country returns score 0 and an empty list without an error. -/
theorem empty_scope_witness :
    calculate_hhi_for_ixps (ReadResult.ok dumpEmpty) "US" "speed" =
      HHIResult.result 0 [] :=
  empty_scope_or_zero_total (by decide) (Or.inl (by decide))

/-- Claim C6: every returned detail entry displays the raw aggregated
value, divided by 1000 exactly when the metric is speed, while its market
share is always computed from the same unconverted raw value over the
total. -/
theorem display_value_conversion {d : Dump} {cc m : String} {h : ℚ}
    {ds : List Entry}
    (hres : calculate_hhi_for_ixps (ReadResult.ok d) cc m =
      HHIResult.result h ds) :
    ∀ e ∈ ds, ∃ p ∈ finalValues d cc m,
      e.2.1 = (if m = "speed" then (p.2 : ℚ) / 1000 else (p.2 : ℚ)) ∧
      e.2.2 = ((p.2 : ℚ) / (totalMarketSize d cc m : ℚ)) * 100 := by
  rcases calc_ok_result_inv hres with ⟨h0, hds⟩ | ⟨hne, hh, hds⟩
  · subst hds
    intro e he
    exact absurd he (List.not_mem_nil e)
  · subst hds
    intro e he
    have he2 := (sortDetailsDesc_perm _).mem_iff.mp he
    rcases List.mem_map.mp he2 with ⟨p, hp, hmk⟩
    refine ⟨p, hp, ?_, ?_⟩
    · rw [← hmk]
      rfl
    · rw [← hmk]
      rfl

/-- Witness for C6: under the speed metric the detail entry of `dumpA`
displays the raw value divided by 1000 while sharing from the raw
value. -/
theorem display_value_witness :
    ∃ p ∈ finalValues dumpA "US" "speed",
      ((1 : ℚ) / 10) = (if "speed" = "speed" then (p.2 : ℚ) / 1000 else (p.2 : ℚ)) ∧
      (100 : ℚ) = ((p.2 : ℚ) / (totalMarketSize dumpA "US" "speed" : ℚ)) * 100 := by
  have hres : calculate_hhi_for_ixps (ReadResult.ok dumpA) "US" "speed" =
      HHIResult.result 10000 [("IX-A", (1 : ℚ) / 10, 100)] := by
    norm_num [calculate_hhi_for_ixps, totalMarketSize, finalValues, targetIxps,
      ixlanToIxMap, ixpMarketValues, aggStep, resolveLink, dlookup, dinsert,
      curInt, curSet, setAdd, finalizeVal, finalIxpValues, totalOf, ixpDetails,
      mkEntry, ixpNameOf, displayValueOf, hhiScore, sortDetailsDesc, insertDesc,
      dumpA, show ("speed" : String) ≠ "asns" from by decide]
  exact display_value_conversion hres ("IX-A", (1 : ℚ) / 10, 100)
    (List.mem_singleton.mpr rfl)

/-- Claim C7: under the asns metric the aggregated value of an Exchange
is the cardinality of the set of distinct net_id values across its
in-scope links. -/
theorem asns_counts_distinct_networks {d : Dump} {cc : String} {i v : Int}
    (h : dlookup i (finalValues d cc "asns") = some v) :
    v = ((inScopeNetIds d cc i).toFinset.card : Int) :=
  asns_value_eq_card h

/-- Witness for C7, scenario D: two links of the same network into the
same Exchange count as one distinct network. -/
theorem asns_counts_witness :
    dlookup 1 (finalValues dumpD "US" "asns") = some 1 ∧
      (1 : Int) = ((inScopeNetIds dumpD "US" 1).toFinset.card : Int) := by
  have h : dlookup 1 (finalValues dumpD "US" "asns") = some 1 := by decide
  exact ⟨h, asns_counts_distinct_networks h⟩

/-- Claim C8: every name in the returned detail list is the name of an
Exchange of the in-scope mapping; the Unknown-IXP fallback is never
taken. -/
theorem detail_names_from_targets {d : Dump} {cc m : String} {h : ℚ}
    {ds : List Entry}
    (hres : calculate_hhi_for_ixps (ReadResult.ok d) cc m =
      HHIResult.result h ds) :
    ∀ e ∈ ds, ∃ q ∈ targetIxps d.ix cc, e.1 = q.2 := by
  rcases calc_ok_result_inv hres with ⟨h0, hds⟩ | ⟨hne, hh, hds⟩
  · subst hds
    intro e he
    exact absurd he (List.not_mem_nil e)
  · subst hds
    intro e he
    have he2 := (sortDetailsDesc_perm _).mem_iff.mp he
    rcases List.mem_map.mp he2 with ⟨p, hp, hmk⟩
    have hsome := finalValues_key_isSome hp
    rcases Option.isSome_iff_exists.mp hsome with ⟨name, hname⟩
    refine ⟨(p.1, name), dlookup_mem hname, ?_⟩
    rw [← hmk]
    show ixpNameOf (targetIxps d.ix cc) p.1 = name
    unfold ixpNameOf
    rw [hname]
    rfl

/-- Witness for C8: the single detail name of `dumpA` is a name from the
in-scope Exchange mapping. -/
theorem detail_names_witness :
    ∃ q ∈ targetIxps dumpA.ix "US", ("IX-A" : String) = q.2 := by
  have hres : calculate_hhi_for_ixps (ReadResult.ok dumpA) "US" "speed" =
      HHIResult.result 10000 [("IX-A", (1 : ℚ) / 10, 100)] := by
    norm_num [calculate_hhi_for_ixps, totalMarketSize, finalValues, targetIxps,
      ixlanToIxMap, ixpMarketValues, aggStep, resolveLink, dlookup, dinsert,
      curInt, curSet, setAdd, finalizeVal, finalIxpValues, totalOf, ixpDetails,
      mkEntry, ixpNameOf, displayValueOf, hhiScore, sortDetailsDesc, insertDesc,
      dumpA, show ("speed" : String) ≠ "asns" from by decide]
  exact detail_names_from_targets hres ("IX-A", (1 : ℚ) / 10, 100)
    (List.mem_singleton.mpr rfl)

/-- Claim C9: the invalid-metric, missing-file and undecodable-content
conditions are all signalled by the `(None, None)` sentinel, which is a
different value than the valid empty terminal state `(0.0, [])`. -/
theorem error_sentinel_distinct :
    (∀ (cc m : String) (read : ReadResult),
        m ∉ (["speed", "asns"] : List String) →
        calculate_hhi_for_ixps read cc m = HHIResult.none2) ∧
      (∀ cc m : String,
        calculate_hhi_for_ixps ReadResult.notFound cc m = HHIResult.none2 ∧
          calculate_hhi_for_ixps ReadResult.malformed cc m = HHIResult.none2) ∧
      HHIResult.none2 ≠ HHIResult.result 0 [] := by
  refine ⟨?_, ?_, by simp⟩
  · intro cc m read hm
    unfold calculate_hhi_for_ixps
    rw [if_pos hm]
  · intro cc m
    constructor <;>
      · unfold calculate_hhi_for_ixps
        split <;> rfl

/-- Witness for C9: the sentinel at two concrete error inputs. -/
theorem error_sentinel_witness :
    calculate_hhi_for_ixps (ReadResult.ok dumpA) "US" "asn" =
        HHIResult.none2 ∧
      calculate_hhi_for_ixps ReadResult.notFound "NL" "speed" =
        HHIResult.none2 :=
  ⟨error_sentinel_distinct.1 "US" "asn" (ReadResult.ok dumpA) (by decide),
   (error_sentinel_distinct.2.1 "NL" "speed").1⟩

/-- Claim C10: under the asns metric an in-scope link lacking a net_id is
not skipped: the None placeholder joins the Exchange's set, so appending
any positive number of such links for an Exchange whose other in-scope
links all carry a net_id raises its aggregated value by exactly 1. -/
theorem missing_net_id_counts_once {d : Dump} {cc : String} {i : Int}
    {ls : List NetIXLan} (hne : ls ≠ [])
    (hall : ∀ l ∈ ls, l.net_id = none ∧
      resolveLink (ixlanToIxMap d.ixlan (targetIxps d.ix cc)) l = some i)
    (hnn : (none : Option Int) ∉ inScopeNetIds d cc i) :
    (dlookup i
        (finalValues { d with netixlan := d.netixlan ++ ls } cc "asns")).getD 0 =
      (dlookup i (finalValues d cc "asns")).getD 0 + 1 := by
  have hrep : ∀ ls' : List NetIXLan,
      (∀ l ∈ ls', l.net_id = none ∧
        resolveLink (ixlanToIxMap d.ixlan (targetIxps d.ix cc)) l = some i) →
      netIdsFor (ixlanToIxMap d.ixlan (targetIxps d.ix cc)) ls' i =
        List.replicate ls'.length (none : Option Int) := by
    intro ls'
    induction ls' with
    | nil => intro _; rfl
    | cons a as ih =>
        intro hall2
        obtain ⟨hnid, hresa⟩ := hall2 a (List.mem_cons_self a as)
        have hstep :
            netIdsFor (ixlanToIxMap d.ixlan (targetIxps d.ix cc)) (a :: as) i =
              a.net_id :: netIdsFor (ixlanToIxMap d.ixlan (targetIxps d.ix cc)) as i := by
          simp [netIdsFor, List.filterMap_cons, hresa]
        rw [hstep, hnid, ih (fun l hl => hall2 l (List.mem_cons_of_mem a hl)),
          List.length_cons, List.replicate_succ]
  have hsplit : inScopeNetIds { d with netixlan := d.netixlan ++ ls } cc i =
      inScopeNetIds d cc i ++ List.replicate ls.length (none : Option Int) := by
    show netIdsFor (ixlanToIxMap d.ixlan (targetIxps d.ix cc))
        (d.netixlan ++ ls) i = _
    rw [netIdsFor_append, hrep ls hall]
    rfl
  have hk : ls.length ≠ 0 := fun h0 => hne (List.length_eq_zero.mp h0)
  have hfin : ∀ n : Nat, n ≠ 0 →
      (List.replicate n (none : Option Int)).toFinset = {none} := by
    intro n
    induction n with
    | zero => intro h0; exact absurd rfl h0
    | succ k ih =>
        intro _
        rw [List.replicate_succ, List.toFinset_cons]
        by_cases hk2 : k = 0
        · subst hk2
          simp
        · rw [ih hk2]
          simp
  have hnotmem : (none : Option Int) ∉ (inScopeNetIds d cc i).toFinset := by
    rw [List.mem_toFinset]
    exact hnn
  rw [finalValues_asns_getD, finalValues_asns_getD, hsplit, List.toFinset_append,
    hfin ls.length hk, Finset.union_comm, ← Finset.insert_eq,
    Finset.card_insert_of_not_mem hnotmem]
  push_cast
  ring

/-- Witness for C10: appending one link without a net_id to `dumpA`
raises the Exchange's distinct-network count from 1 to 2. -/
theorem missing_net_id_witness :
    (dlookup 1 (finalValues
        { dumpA with netixlan := dumpA.netixlan ++ [linkNoNet] } "US" "asns")).getD 0 =
      (dlookup 1 (finalValues dumpA "US" "asns")).getD 0 + 1 := by
  refine missing_net_id_counts_once (by decide) ?_ (by decide)
  intro l hl
  rw [List.mem_singleton] at hl
  subst hl
  exact ⟨rfl, by decide⟩

end HHI
